import Mathlib

/-!
Shallow embedding of the ε-NFA → NFA converter from
src/services/nfaConverter.ts, together with the data model from the
repository's type declarations (Transition, Automaton, EpsilonClosureMap,
EPSILON).

Modelling conventions:
* JavaScript strings are Lean `String`s; `Array.prototype.sort()` on a
  duplicate-free array of strings is modelled by insertion sort under the
  lexicographic code-point order `strLe` (JS sorts strings by code units;
  on the same duplicate-free set every comparison sort returns the same,
  unique, sorted list).
* The JS `Set` objects are modelled as duplicate-free lists kept in
  insertion order (`insertNew` appends at the end exactly when absent).
* The worklist in `computeStateEpsilonClosure` is a stack; it is modelled
  with the head of the list as the top.  The loop is written with an
  explicit fuel argument; `closureFuel` is proved sufficient below, so the
  fuel never runs out (this is the termination argument the spec asks for).
* The JS object map `closures` is an association list; an indexing
  `closures[s]` on a missing key, whose `.forEach`/`.some` would throw a
  TypeError at run time, is modelled by `Option` propagation: the whole
  conversion returns `none` exactly when the JS function would throw.
-/

structure Transition where
  «from» : String
  «to» : String
  symbol : String
deriving DecidableEq

structure Automaton where
  states : List String
  alphabet : List String
  transitions : List Transition
  initialState : String
  finalStates : List String
deriving DecidableEq

abbrev EpsilonClosureMap := List (String × List String)

def EPSILON : String := "ε"

/-- Lexicographic order on code points, the order JS string comparison uses. -/
def listCharLe : List Char → List Char → Bool
  | [], _ => true
  | _ :: _, [] => false
  | a :: as, b :: bs =>
      if a.toNat < b.toNat then true
      else if b.toNat < a.toNat then false
      else listCharLe as bs

def strLe (a b : String) : Bool := listCharLe a.data b.data

/-- Epsilon moves out of `current`: the filter inside the while loop of
`computeStateEpsilonClosure` (`t.from === current && (t.symbol === "" ||
t.symbol === "ε")`), mapped to the targets. -/
def epsilonMoves (ts : List Transition) (current : String) : List String :=
  (ts.filter fun t => decide (t.«from» = current ∧ (t.symbol = "" ∨ t.symbol = "ε"))).map
    (fun t => t.«to»)

/-- Processing of one epsilon target inside the while loop: if it is not
yet in the closure, add it to the closure and push it on the stack. -/
def insertPush (acc : List String × List String) (n : String) : List String × List String :=
  if n ∈ acc.1 then acc else (acc.1 ++ [n], n :: acc.2)

/-- One iteration body of the while loop: process every epsilon target of
`current`. -/
def closureStep (ts : List Transition) (current : String)
    (acc : List String × List String) : List String × List String :=
  (epsilonMoves ts current).foldl insertPush acc

/-- The while loop of `computeStateEpsilonClosure`, with explicit fuel.
State: current closure set (insertion order) and the stack (head = top). -/
def closureLoop (ts : List Transition) : Nat → List String → List String → List String
  | 0, closure, _ => closure
  | _ + 1, closure, [] => closure
  | fuel + 1, closure, current :: stack =>
      let next := closureStep ts current (closure, stack)
      closureLoop ts fuel next.1 next.2

/-- Fuel that is provably enough for the worklist to empty. -/
def closureFuel (ts : List Transition) : Nat := 2 * ts.length + 1

/-- `computeStateEpsilonClosure` from the source: worklist closure starting
from `{state}`, returned sorted (`Array.from(closure).sort()`). -/
def computeStateEpsilonClosure (state : String) (ts : List Transition) : List String :=
  List.insertionSort (fun a b => strLe a b = true)
    (closureLoop ts (closureFuel ts) [state] [state])

/-- `computeAllEpsilonClosures`: one entry per declared state. -/
def computeAllEpsilonClosures (enfa : Automaton) : EpsilonClosureMap :=
  enfa.states.map (fun s => (s, computeStateEpsilonClosure s enfa.transitions))

/-- Insertion into a JS `Set` modelled as a duplicate-free list in
insertion order. -/
def insertNew (xs : List String) (x : String) : List String :=
  if x ∈ xs then xs else xs ++ [x]

/-- The `reachedAfterSymbol` set of the converter: for each `p` in the
closure of `q`, collect the targets of transitions `(p, a)`. -/
def reachedAfterSymbol (ts : List Transition) (qClosure : List String) (a : String) :
    List String :=
  qClosure.foldl
    (fun acc p =>
      ((ts.filter fun t => decide (t.«from» = p ∧ t.symbol = a)).map
        (fun t => t.«to»)).foldl insertNew acc)
    []

/-- The `finalReached` set: the union of `closures[s]` over the reached
states; a missing map entry (the JS TypeError) yields `none`. -/
def finalReachedM (closures : EpsilonClosureMap) (reached : List String) :
    Option (List String) :=
  reached.foldlM
    (fun acc s => (closures.lookup s).map (fun c => c.foldl insertNew acc)) []

/-- The duplicate-suppressing push into `newTransitions`
(`if (!newTransitions.find(...)) newTransitions.push(...)`). -/
def addTransitionIfNew (acc : List Transition) (q target a : String) : List Transition :=
  if acc.any (fun t => decide (t.«from» = q ∧ t.«to» = target ∧ t.symbol = a)) then acc
  else acc ++ [{ «from» := q, «to» := target, symbol := a }]

/-- Body of the two nested loops of `convertENFAToNFA` for one pair
`(q, a)`: look up the closure of `q`, step on the symbol, re-close, and
append the derived transitions. -/
def pairStep (enfa : Automaton) (closures : EpsilonClosureMap)
    (acc : List Transition) (q a : String) : Option (List Transition) := do
  let qClosure ← closures.lookup q
  let reached := reachedAfterSymbol enfa.transitions qClosure a
  let fr ← finalReachedM closures reached
  pure (fr.foldl (fun acc2 target => addTransitionIfNew acc2 q target a) acc)

/-- The two nested loops over `enfa.states` and the epsilon-free alphabet. -/
def projectTransitions (enfa : Automaton) (closures : EpsilonClosureMap)
    (alphabetWithoutEpsilon : List String) : Option (List Transition) :=
  enfa.states.foldlM
    (fun acc q => alphabetWithoutEpsilon.foldlM (fun acc2 a => pairStep enfa closures acc2 q a) acc)
    []

/-- Step 3: `enfa.states.filter(q => closures[q].some(s =>
enfa.finalStates.includes(s)))`, with the map lookup made explicit. -/
def selectFinalStates (enfa : Automaton) (closures : EpsilonClosureMap) :
    Option (List String) :=
  enfa.states.foldlM
    (fun acc q =>
      (closures.lookup q).map
        (fun qClosure =>
          if qClosure.any (fun s => decide (s ∈ enfa.finalStates)) then acc ++ [q] else acc))
    []

structure ConversionResult where
  nfa : Automaton
  closures : EpsilonClosureMap
deriving DecidableEq

/-- `convertENFAToNFA` from the source, assembled from the components
above; `none` models the run-time TypeError on a missing closure entry. -/
def convertENFAToNFA (enfa : Automaton) : Option ConversionResult := do
  let closures := computeAllEpsilonClosures enfa
  let alphabetWithoutEpsilon := enfa.alphabet.filter fun a => decide (¬(a = "" ∨ a = "ε"))
  let newTransitions ← projectTransitions enfa closures alphabetWithoutEpsilon
  let newFinalStates ← selectFinalStates enfa closures
  pure
    { nfa :=
        { states := enfa.states
          alphabet := alphabetWithoutEpsilon
          transitions := newTransitions
          initialState := enfa.initialState
          finalStates := newFinalStates }
      closures := closures }

/-- The worked example of the spec (the INITIAL_ENFA of the application). -/
def exampleENFA : Automaton :=
  { states := ["A", "B", "C"]
    alphabet := ["0", "1", "ε"]
    transitions :=
      [ { «from» := "A", «to» := "A", symbol := "0" },
        { «from» := "A", «to» := "B", symbol := "ε" },
        { «from» := "B", «to» := "B", symbol := "1" },
        { «from» := "B", «to» := "C", symbol := "ε" },
        { «from» := "C", «to» := "C", symbol := "0" } ]
    initialState := "A"
    finalStates := ["C"] }

/-- The output the converter produces on `exampleENFA`. -/
def exampleConversion : ConversionResult :=
  { nfa :=
      { states := ["A", "B", "C"]
        alphabet := ["0", "1"]
        transitions :=
          [ { «from» := "A", «to» := "A", symbol := "0" },
            { «from» := "A", «to» := "B", symbol := "0" },
            { «from» := "A", «to» := "C", symbol := "0" },
            { «from» := "A", «to» := "B", symbol := "1" },
            { «from» := "A", «to» := "C", symbol := "1" },
            { «from» := "B", «to» := "C", symbol := "0" },
            { «from» := "B", «to» := "B", symbol := "1" },
            { «from» := "B", «to» := "C", symbol := "1" },
            { «from» := "C", «to» := "C", symbol := "0" } ]
        initialState := "A"
        finalStates := ["A", "B", "C"] }
    closures := [("A", ["A", "B", "C"]), ("B", ["B", "C"]), ("C", ["C"])] }

/-- A two-state epsilon cycle, the termination scenario of the spec. -/
def cycleENFA : Automaton :=
  { states := ["X", "Y"]
    alphabet := ["ε"]
    transitions :=
      [ { «from» := "X", «to» := "Y", symbol := "ε" },
        { «from» := "Y", «to» := "X", symbol := "ε" } ]
    initialState := "X"
    finalStates := [] }

/-- An input violating invariants 1 and 2 of the data model: the initial
state and a final state are not declared states. -/
def invalidInitENFA : Automaton :=
  { states := ["A"]
    alphabet := ["0"]
    transitions := []
    initialState := "Z"
    finalStates := ["Q"] }

/-- An input violating invariant 3: a transition target that is not a
declared state. -/
def danglingENFA : Automaton :=
  { states := ["A"]
    alphabet := ["0"]
    transitions := [{ «from» := "A", «to» := "B", symbol := "0" }]
    initialState := "A"
    finalStates := [] }

/-- An input violating invariant 4: a transition symbol that is not in the
alphabet. -/
def undeclaredSymENFA : Automaton :=
  { states := ["A"]
    alphabet := ["0"]
    transitions := [{ «from» := "A", «to» := "A", symbol := "7" }]
    initialState := "A"
    finalStates := [] }

/-- An epsilon-free automaton used to instantiate the idempotence claim. -/
def noEpsENFA : Automaton :=
  { states := ["A", "B"]
    alphabet := ["0"]
    transitions := [{ «from» := "A", «to» := "B", symbol := "0" }]
    initialState := "A"
    finalStates := ["B"] }

/-- The target set of the projection identity of the spec, stated with the
closure calculator of the source: `target` is in the epsilon closure of
some state reached from the epsilon closure of `q` by one `a`-step. -/
def ProjTarget (enfa : Automaton) (q a target : String) : Prop :=
  ∃ t ∈ enfa.transitions,
    t.«from» ∈ computeStateEpsilonClosure q enfa.transitions ∧ t.symbol = a ∧
      target ∈ computeStateEpsilonClosure t.«to» enfa.transitions

/-- All transition targets; every state the worklist can ever add is one. -/
def closureTargets (ts : List Transition) : List String := ts.map (fun t => t.«to»)

/-- How many transition targets are still outside the closure set. -/
def missingCount (ts : List Transition) (closure : List String) : Nat :=
  ((closureTargets ts).filter (fun u => decide (u ∉ closure))).length

/-- Termination measure of the worklist loop: each iteration pops one
stack entry, and pushes only together with a strict decrease of
`missingCount`. -/
def loopMeasure (ts : List Transition) (closure stack : List String) : Nat :=
  2 * missingCount ts closure + stack.length

/-! ### Order facts for the sorting comparison -/

theorem listCharLe_total : ∀ x y : List Char, listCharLe x y = true ∨ listCharLe y x = true := by
  intro x
  induction x with
  | nil => intro y; left; rfl
  | cons a as ih =>
    intro y
    cases y with
    | nil => right; rfl
    | cons b bs =>
      rcases Nat.lt_trichotomy a.toNat b.toNat with h | h | h
      · left; simp [listCharLe, h]
      · rcases ih bs with h2 | h2
        · left; simp [listCharLe, h, h2]
        · right; simp [listCharLe, h.symm, h2]
      · right; simp [listCharLe, h]

theorem listCharLe_trans :
    ∀ x y z : List Char, listCharLe x y = true → listCharLe y z = true →
      listCharLe x z = true := by
  intro x
  induction x with
  | nil => intro y z _ _; rfl
  | cons a as ih =>
    intro y z h1 h2
    cases y with
    | nil => simp [listCharLe] at h1
    | cons b bs =>
      cases z with
      | nil => simp [listCharLe] at h2
      | cons c cs =>
        simp only [listCharLe] at h1 h2 ⊢
        rcases Nat.lt_trichotomy a.toNat b.toNat with hab | hab | hab <;>
          rcases Nat.lt_trichotomy b.toNat c.toNat with hbc | hbc | hbc
        · simp [show a.toNat < c.toNat by omega]
        · simp [show a.toNat < c.toNat by omega]
        · simp [show ¬ b.toNat < c.toNat by omega, hbc] at h2
        · simp [show a.toNat < c.toNat by omega]
        · simp [show ¬ a.toNat < b.toNat by omega,
            show ¬ b.toNat < a.toNat by omega] at h1
          simp [show ¬ b.toNat < c.toNat by omega,
            show ¬ c.toNat < b.toNat by omega] at h2
          simp [show ¬ a.toNat < c.toNat by omega, show ¬ c.toNat < a.toNat by omega]
          exact ih bs cs h1 h2
        · simp [show ¬ b.toNat < c.toNat by omega, hbc] at h2
        · simp [show ¬ a.toNat < b.toNat by omega, hab] at h1
        · simp [show ¬ a.toNat < b.toNat by omega, hab] at h1
        · simp [show ¬ a.toNat < b.toNat by omega, hab] at h1

instance strLeTotalInst : IsTotal String (fun a b => strLe a b = true) :=
  ⟨fun a b => listCharLe_total a.data b.data⟩

instance strLeTransInst : IsTrans String (fun a b => strLe a b = true) :=
  ⟨fun a b c h1 h2 => listCharLe_trans a.data b.data c.data h1 h2⟩

/-! ### Facts about the worklist fold step -/

theorem mem_epsilonMoves {ts : List Transition} {r n : String} :
    n ∈ epsilonMoves ts r ↔
      ∃ t ∈ ts, t.«from» = r ∧ (t.symbol = "" ∨ t.symbol = "ε") ∧ t.«to» = n := by
  simp only [epsilonMoves, List.mem_map, List.mem_filter, decide_eq_true_eq]
  constructor
  · rintro ⟨t, ⟨ht, hf, hs⟩, hto⟩
    exact ⟨t, ht, hf, hs, hto⟩
  · rintro ⟨t, ht, hf, hs, hto⟩
    exact ⟨t, ⟨ht, hf, hs⟩, hto⟩

theorem epsilonMoves_subset_targets {ts : List Transition} {r : String} :
    ∀ n ∈ epsilonMoves ts r, n ∈ closureTargets ts := by
  intro n hn
  rcases mem_epsilonMoves.mp hn with ⟨t, ht, _, _, hto⟩
  exact hto ▸ List.mem_map_of_mem _ ht

theorem foldl_insertPush_closure_subset (moves : List String) :
    ∀ acc : List String × List String, acc.1 ⊆ (moves.foldl insertPush acc).1 := by
  induction moves with
  | nil => intro acc; exact fun _ h => h
  | cons n rest ih =>
    intro acc
    refine List.Subset.trans ?_ (ih (insertPush acc n))
    unfold insertPush
    by_cases h : n ∈ acc.1
    · simp [h]
    · simp only [h, if_false]
      exact List.subset_append_left _ _

theorem foldl_insertPush_stack_subset (moves : List String) :
    ∀ acc : List String × List String, acc.2 ⊆ (moves.foldl insertPush acc).2 := by
  induction moves with
  | nil => intro acc; exact fun _ h => h
  | cons n rest ih =>
    intro acc
    refine List.Subset.trans ?_ (ih (insertPush acc n))
    unfold insertPush
    by_cases h : n ∈ acc.1
    · simp [h]
    · simp only [h, if_false]
      exact List.subset_cons_self _ _

theorem foldl_insertPush_mem_moves (moves : List String) :
    ∀ acc : List String × List String, ∀ n ∈ moves, n ∈ (moves.foldl insertPush acc).1 := by
  induction moves with
  | nil => intro acc n hn; simp at hn
  | cons m rest ih =>
    intro acc n hn
    rcases List.mem_cons.mp hn with rfl | hn
    · refine foldl_insertPush_closure_subset rest (insertPush acc n) ?_
      unfold insertPush
      by_cases h : n ∈ acc.1
      · simp [h]
      · simp [h]
    · exact ih (insertPush acc m) n hn

theorem foldl_insertPush_stack_in_closure (moves : List String) :
    ∀ acc : List String × List String, acc.2 ⊆ acc.1 →
      (moves.foldl insertPush acc).2 ⊆ (moves.foldl insertPush acc).1 := by
  induction moves with
  | nil => intro acc h; exact h
  | cons n rest ih =>
    intro acc h
    refine ih (insertPush acc n) ?_
    unfold insertPush
    by_cases hn : n ∈ acc.1
    · simp only [hn, if_true]; exact h
    · simp only [hn, if_false]
      intro x hx
      rcases List.mem_cons.mp hx with rfl | hx
      · exact List.mem_append_right _ (List.mem_singleton_self _)
      · exact List.mem_append_left _ (h hx)

theorem foldl_insertPush_new_in_stack (moves : List String) :
    ∀ acc : List String × List String, ∀ x ∈ (moves.foldl insertPush acc).1,
      x ∈ acc.1 ∨ x ∈ (moves.foldl insertPush acc).2 := by
  induction moves with
  | nil => intro acc x hx; exact Or.inl hx
  | cons n rest ih =>
    intro acc x hx
    rcases ih (insertPush acc n) x hx with h | h
    · unfold insertPush at h
      by_cases hn : n ∈ acc.1
      · simp only [hn, if_true] at h
        exact Or.inl h
      · simp only [hn, if_false] at h
        rcases List.mem_append.mp h with h1 | h1
        · exact Or.inl h1
        · right
          refine foldl_insertPush_stack_subset rest (insertPush acc n) ?_
          unfold insertPush
          simp only [hn, if_false]
          rcases List.mem_singleton.mp h1 with rfl
          exact List.mem_cons_self _ _
    · exact Or.inr h

/-! ### Termination of the worklist loop -/

theorem missingCount_append_lt {ts : List Transition} {closure : List String} {n : String}
    (hn : n ∈ closureTargets ts) (hnc : n ∉ closure) :
    missingCount ts (closure ++ [n]) < missingCount ts closure := by
  unfold missingCount
  have hfe : (closureTargets ts).filter (fun u => decide (u ∉ closure ++ [n]))
      = ((closureTargets ts).filter (fun u => decide (u ∉ closure))).filter
          (fun u => decide (u ≠ n)) := by
    rw [List.filter_filter]
    refine List.filter_congr ?_
    intro u _
    by_cases h1 : u ∈ closure <;> by_cases h2 : u = n <;> simp [h1, h2]
  rw [hfe]
  refine List.length_filter_lt_length_iff_exists.mpr ?_
  exact ⟨n, List.mem_filter.mpr ⟨hn, by simp [hnc]⟩, by simp⟩

theorem foldl_insertPush_measure (ts : List Transition) :
    ∀ moves : List String, (∀ n ∈ moves, n ∈ closureTargets ts) →
      ∀ acc : List String × List String,
        2 * missingCount ts (moves.foldl insertPush acc).1 + (moves.foldl insertPush acc).2.length
          ≤ 2 * missingCount ts acc.1 + acc.2.length := by
  intro moves
  induction moves with
  | nil => intro _ acc; exact Nat.le_refl _
  | cons n rest ih =>
    intro hm acc
    have h1 := ih (fun m h => hm m (List.mem_cons_of_mem _ h)) (insertPush acc n)
    refine Nat.le_trans h1 ?_
    unfold insertPush
    by_cases h : n ∈ acc.1
    · simp [h]
    · simp only [h, if_false]
      have h2 := missingCount_append_lt (hm n (List.mem_cons_self _ _)) h
      simp only [List.length_cons]
      omega

theorem closureStep_measure (ts : List Transition) (current : String)
    (closure stack : List String) :
    2 * missingCount ts (closureStep ts current (closure, stack)).1
        + (closureStep ts current (closure, stack)).2.length
      ≤ 2 * missingCount ts closure + stack.length :=
  foldl_insertPush_measure ts _ (fun n hn => epsilonMoves_subset_targets n hn) (closure, stack)

theorem closureLoop_succ_eq (ts : List Transition) :
    ∀ fuel closure stack, loopMeasure ts closure stack ≤ fuel →
      closureLoop ts (fuel + 1) closure stack = closureLoop ts fuel closure stack := by
  intro fuel
  induction fuel with
  | zero =>
    intro closure stack h
    have hstack : stack = [] := by
      unfold loopMeasure at h
      cases stack with
      | nil => rfl
      | cons a l => simp only [List.length_cons] at h; omega
    subst hstack
    rfl
  | succ fuel ih =>
    intro closure stack h
    cases stack with
    | nil => rfl
    | cons current rest =>
      show closureLoop ts (fuel + 1) (closureStep ts current (closure, rest)).1
            (closureStep ts current (closure, rest)).2
          = closureLoop ts fuel (closureStep ts current (closure, rest)).1
            (closureStep ts current (closure, rest)).2
      refine ih _ _ ?_
      have h2 := closureStep_measure ts current closure rest
      unfold loopMeasure at h ⊢
      simp only [List.length_cons] at h
      omega

theorem closureLoop_of_le (ts : List Transition) (fuel fuel2 : Nat)
    (closure stack : List String) (h : loopMeasure ts closure stack ≤ fuel)
    (hle : fuel ≤ fuel2) :
    closureLoop ts fuel2 closure stack = closureLoop ts fuel closure stack := by
  obtain ⟨k, rfl⟩ := Nat.exists_eq_add_of_le hle
  induction k with
  | zero => rfl
  | succ k ih =>
    rw [show fuel + (k + 1) = (fuel + k) + 1 by omega]
    rw [closureLoop_succ_eq ts (fuel + k) closure stack (Nat.le_trans h (Nat.le_add_right _ _))]
    exact ih (Nat.le_add_right _ _)

theorem loopMeasure_init_le (ts : List Transition) (state : String) :
    loopMeasure ts [state] [state] ≤ closureFuel ts := by
  unfold loopMeasure closureFuel missingCount
  have h1 := List.length_filter_le (fun u => decide (u ∉ [state])) (closureTargets ts)
  have h2 : (closureTargets ts).length = ts.length := List.length_map _ _
  simp only [List.length_cons, List.length_nil]
  omega

/-! ### Monotonicity and closedness of the worklist loop -/

theorem closureLoop_subset (ts : List Transition) :
    ∀ fuel closure stack, closure ⊆ closureLoop ts fuel closure stack := by
  intro fuel
  induction fuel with
  | zero => intro c s; exact fun _ h => h
  | succ fuel ih =>
    intro c s
    cases s with
    | nil => exact fun _ h => h
    | cons current rest =>
      show c ⊆ closureLoop ts fuel (closureStep ts current (c, rest)).1
            (closureStep ts current (c, rest)).2
      refine List.Subset.trans ?_ (ih _ _)
      exact foldl_insertPush_closure_subset _ (c, rest)

theorem closureLoop_closed (ts : List Transition) :
    ∀ fuel closure stack, loopMeasure ts closure stack ≤ fuel →
      (∀ x ∈ stack, x ∈ closure) →
      (∀ r ∈ closure, r ∉ stack → ∀ n ∈ epsilonMoves ts r, n ∈ closure) →
      ∀ r ∈ closureLoop ts fuel closure stack, ∀ n ∈ epsilonMoves ts r,
        n ∈ closureLoop ts fuel closure stack := by
  intro fuel
  induction fuel with
  | zero =>
    intro closure stack hm _ hinv r hr n hn
    have hstack : stack = [] := by
      unfold loopMeasure at hm
      cases stack with
      | nil => rfl
      | cons a l => simp only [List.length_cons] at hm; omega
    subst hstack
    exact hinv r hr (by simp) n hn
  | succ fuel ih =>
    intro closure stack hm hsub hinv
    cases stack with
    | nil =>
      intro r hr n hn
      exact hinv r hr (by simp) n hn
    | cons current rest =>
      show ∀ r ∈ closureLoop ts fuel (closureStep ts current (closure, rest)).1
            (closureStep ts current (closure, rest)).2, ∀ n ∈ epsilonMoves ts r,
          n ∈ closureLoop ts fuel (closureStep ts current (closure, rest)).1
            (closureStep ts current (closure, rest)).2
      refine ih _ _ ?_ ?_ ?_
      · have h2 := closureStep_measure ts current closure rest
        unfold loopMeasure at hm ⊢
        simp only [List.length_cons] at hm
        omega
      · refine foldl_insertPush_stack_in_closure _ (closure, rest) ?_
        exact fun x hx => hsub x (List.mem_cons_of_mem _ hx)
      · intro r hr hrs n hn
        by_cases hrc : r = current
        · subst hrc
          exact foldl_insertPush_mem_moves _ (closure, rest) n hn
        · rcases foldl_insertPush_new_in_stack _ (closure, rest) r hr with h | h
          · have hnotin : r ∉ current :: rest := by
              intro hmem
              rcases List.mem_cons.mp hmem with h1 | h1
              · exact hrc h1
              · exact hrs (foldl_insertPush_stack_subset _ (closure, rest) h1)
            exact foldl_insertPush_closure_subset _ (closure, rest) (hinv r h hnotin n hn)
          · exact absurd h hrs

/-! ### Properties of the closure calculator -/

theorem mem_computeStateEpsilonClosure {state : String} {ts : List Transition} {x : String} :
    x ∈ computeStateEpsilonClosure state ts ↔
      x ∈ closureLoop ts (closureFuel ts) [state] [state] :=
  List.mem_insertionSort _

theorem self_mem_closure (state : String) (ts : List Transition) :
    state ∈ computeStateEpsilonClosure state ts :=
  mem_computeStateEpsilonClosure.mpr
    (closureLoop_subset ts _ _ _ (List.mem_singleton_self state))

theorem closure_closed (state : String) (ts : List Transition) :
    ∀ r ∈ computeStateEpsilonClosure state ts, ∀ n ∈ epsilonMoves ts r,
      n ∈ computeStateEpsilonClosure state ts := by
  intro r hr n hn
  refine mem_computeStateEpsilonClosure.mpr ?_
  refine closureLoop_closed ts (closureFuel ts) [state] [state]
    (loopMeasure_init_le ts state) (fun x hx => hx) ?_ r
    (mem_computeStateEpsilonClosure.mp hr) n hn
  intro r2 hr2 hr2n
  exact absurd hr2 hr2n

theorem closure_sorted (state : String) (ts : List Transition) :
    List.Sorted (fun a b => strLe a b = true) (computeStateEpsilonClosure state ts) :=
  List.sorted_insertionSort _ _

theorem epsilonClosure_singleton {state : String} {ts : List Transition}
    (h : epsilonMoves ts state = []) :
    computeStateEpsilonClosure state ts = [state] := by
  have h1 : closureLoop ts (closureFuel ts) [state] [state]
      = closureLoop ts (2 * ts.length) [state] [] := by
    show closureLoop ts (2 * ts.length) (closureStep ts state ([state], [])).1
          (closureStep ts state ([state], [])).2
        = closureLoop ts (2 * ts.length) [state] []
    rw [closureStep, h, List.foldl_nil]
  have h2 : closureLoop ts (2 * ts.length) [state] ([] : List String) = [state] := by
    cases h3 : 2 * ts.length with
    | zero => rfl
    | succ k => rfl
  unfold computeStateEpsilonClosure
  rw [h1, h2]
  rfl

/-! ### The closure map as an association list -/

theorem lookup_map_self {β : Type} (f : String → β) :
    ∀ (states : List String) (q : String), q ∈ states →
      (states.map (fun s => (s, f s))).lookup q = some (f q) := by
  intro states
  induction states with
  | nil => intro q hq; simp at hq
  | cons s rest ih =>
    intro q hq
    rcases List.mem_cons.mp hq with rfl | hq
    · simp [List.lookup]
    · by_cases hqs : q = s
      · subst hqs; simp [List.lookup]
      · simp only [List.map_cons, List.lookup]
        rw [show (q == s) = false from beq_eq_false_iff_ne.mpr hqs]
        exact ih q hq

theorem lookup_map_none {β : Type} (f : String → β) :
    ∀ (states : List String) (q : String), q ∉ states →
      (states.map (fun s => (s, f s))).lookup q = none := by
  intro states
  induction states with
  | nil => intro q _; rfl
  | cons s rest ih =>
    intro q hq
    have hqs : q ≠ s := fun h => hq (h ▸ List.mem_cons_self _ _)
    simp only [List.map_cons, List.lookup]
    rw [show (q == s) = false from beq_eq_false_iff_ne.mpr hqs]
    exact ih q (fun h => hq (List.mem_cons_of_mem _ h))

theorem lookup_closures_of_mem {enfa : Automaton} {q : String} (hq : q ∈ enfa.states) :
    (computeAllEpsilonClosures enfa).lookup q
      = some (computeStateEpsilonClosure q enfa.transitions) :=
  lookup_map_self _ enfa.states q hq

theorem lookup_closures_eq_some {enfa : Automaton} {q : String} {c : List String}
    (h : (computeAllEpsilonClosures enfa).lookup q = some c) :
    q ∈ enfa.states ∧ c = computeStateEpsilonClosure q enfa.transitions := by
  by_cases hq : q ∈ enfa.states
  · have h2 := lookup_closures_of_mem hq
    rw [h] at h2
    exact ⟨hq, Option.some_inj.mp h2⟩
  · have h3 : (computeAllEpsilonClosures enfa).lookup q = none :=
      lookup_map_none (fun s => computeStateEpsilonClosure s enfa.transitions) enfa.states q hq
    rw [h] at h3
    exact absurd h3 (by simp)

theorem lookup_closures_isSome {enfa : Automaton} {q : String} :
    ((computeAllEpsilonClosures enfa).lookup q).isSome ↔ q ∈ enfa.states := by
  constructor
  · intro h
    rcases Option.isSome_iff_exists.mp h with ⟨c, hc⟩
    exact (lookup_closures_eq_some hc).1
  · intro h
    rw [lookup_closures_of_mem h]
    rfl

/-! ### Membership in the set folds of the projector -/

theorem mem_insertNew {xs : List String} {x y : String} :
    x ∈ insertNew xs y ↔ x ∈ xs ∨ x = y := by
  unfold insertNew
  by_cases h : y ∈ xs
  · simp only [h, if_true]
    constructor
    · exact Or.inl
    · rintro (hx | rfl)
      · exact hx
      · exact h
  · simp [h, List.mem_append]

theorem mem_foldl_insertNew :
    ∀ (l : List String) (acc : List String) (x : String),
      x ∈ l.foldl insertNew acc ↔ x ∈ acc ∨ x ∈ l := by
  intro l
  induction l with
  | nil => intro acc x; simp
  | cons y rest ih =>
    intro acc x
    rw [List.foldl_cons, ih]
    rw [mem_insertNew]
    constructor
    · rintro ((h | rfl) | h)
      · exact Or.inl h
      · exact Or.inr (List.mem_cons_self _ _)
      · exact Or.inr (List.mem_cons_of_mem _ h)
    · rintro (h | h)
      · exact Or.inl (Or.inl h)
      · rcases List.mem_cons.mp h with rfl | h
        · exact Or.inl (Or.inr rfl)
        · exact Or.inr h

theorem mem_reachedAfterSymbol {ts : List Transition} {qClosure : List String}
    {a x : String} :
    x ∈ reachedAfterSymbol ts qClosure a ↔
      ∃ t ∈ ts, t.«from» ∈ qClosure ∧ t.symbol = a ∧ t.«to» = x := by
  have main : ∀ (l : List String) (acc : List String),
      x ∈ l.foldl (fun acc p =>
        ((ts.filter fun t => decide (t.«from» = p ∧ t.symbol = a)).map
          (fun t => t.«to»)).foldl insertNew acc) acc ↔
        x ∈ acc ∨ ∃ t ∈ ts, t.«from» ∈ l ∧ t.symbol = a ∧ t.«to» = x := by
    intro l
    induction l with
    | nil => intro acc; simp
    | cons p rest ih =>
      intro acc
      rw [List.foldl_cons, ih, mem_foldl_insertNew]
      simp only [List.mem_map, List.mem_filter, decide_eq_true_eq]
      constructor
      · rintro ((h | ⟨t, ⟨ht, hf, hs⟩, hto⟩) | ⟨t, ht, hf, hs, hto⟩)
        · exact Or.inl h
        · exact Or.inr ⟨t, ht, hf ▸ List.mem_cons_self _ _, hs, hto⟩
        · exact Or.inr ⟨t, ht, List.mem_cons_of_mem _ hf, hs, hto⟩
      · rintro (h | ⟨t, ht, hf, hs, hto⟩)
        · exact Or.inl (Or.inl h)
        · rcases List.mem_cons.mp hf with hfp | hf
          · exact Or.inl (Or.inr ⟨t, ⟨ht, hfp, hs⟩, hto⟩)
          · exact Or.inr ⟨t, ht, hf, hs, hto⟩
  rw [reachedAfterSymbol, main]
  simp

theorem finalReachedM_eq_some {closures : EpsilonClosureMap} :
    ∀ (reached : List String) (acc fr : List String),
      (reached.foldlM
        (fun acc s => (closures.lookup s).map (fun c => c.foldl insertNew acc)) acc
          : Option (List String)) = some fr →
      (∀ s ∈ reached, (closures.lookup s).isSome) ∧
        (∀ x, x ∈ fr ↔ x ∈ acc ∨ ∃ s ∈ reached, ∃ c, closures.lookup s = some c ∧ x ∈ c) := by
  intro reached
  induction reached with
  | nil =>
    intro acc fr h
    simp only [List.foldlM, Option.pure_def, Option.some_inj] at h
    subst h
    constructor
    · intro s hs; simp at hs
    · intro x; simp
  | cons s rest ih =>
    intro acc fr h
    cases hl : closures.lookup s with
    | none => simp [List.foldlM, hl] at h
    | some c =>
      simp only [List.foldlM, hl] at h
      simp only [Option.map_some', Option.some_bind] at h
      rcases ih (c.foldl insertNew acc) fr h with ⟨h1, h2⟩
      constructor
      · intro s2 hs2
        rcases List.mem_cons.mp hs2 with rfl | hs2
        · rw [hl]; rfl
        · exact h1 s2 hs2
      · intro x
        rw [h2 x, mem_foldl_insertNew]
        constructor
        · rintro ((h3 | h3) | ⟨s2, hs2, c2, hc2, hx⟩)
          · exact Or.inl h3
          · exact Or.inr ⟨s, List.mem_cons_self _ _, c, hl, h3⟩
          · exact Or.inr ⟨s2, List.mem_cons_of_mem _ hs2, c2, hc2, hx⟩
        · rintro (h3 | ⟨s2, hs2, c2, hc2, hx⟩)
          · exact Or.inl (Or.inl h3)
          · rcases List.mem_cons.mp hs2 with rfl | hs2
            · rw [hl] at hc2
              exact Or.inl (Or.inr ((Option.some_inj.mp hc2) ▸ hx))
            · exact Or.inr ⟨s2, hs2, c2, hc2, hx⟩

theorem finalReachedM_isSome {closures : EpsilonClosureMap} :
    ∀ (reached : List String) (acc : List String),
      (∀ s ∈ reached, (closures.lookup s).isSome) →
      ((reached.foldlM
        (fun acc s => (closures.lookup s).map (fun c => c.foldl insertNew acc)) acc
          : Option (List String))).isSome := by
  intro reached
  induction reached with
  | nil => intro acc _; rfl
  | cons s rest ih =>
    intro acc h
    cases hl : closures.lookup s with
    | none =>
      have := h s (List.mem_cons_self _ _)
      rw [hl] at this
      exact absurd this (by simp)
    | some c =>
      simp only [List.foldlM, hl, Option.map_some', Option.some_bind]
      exact ih _ (fun s2 hs2 => h s2 (List.mem_cons_of_mem _ hs2))

/-! ### The duplicate-suppressing transition accumulator -/

theorem transition_eta {t : Transition} {q tg a : String}
    (hf : t.«from» = q) (ht : t.«to» = tg) (hs : t.symbol = a) :
    t = { «from» := q, «to» := tg, symbol := a } := by
  cases t
  simp only at hf ht hs
  simp [hf, ht, hs]

theorem mem_addTransitionIfNew {acc : List Transition} {q tg a : String} {t : Transition} :
    t ∈ addTransitionIfNew acc q tg a ↔
      t ∈ acc ∨ t = { «from» := q, «to» := tg, symbol := a } := by
  unfold addTransitionIfNew
  by_cases h : acc.any (fun t => decide (t.«from» = q ∧ t.«to» = tg ∧ t.symbol = a)) = true
  · simp only [h, if_true]
    constructor
    · exact Or.inl
    · rintro (hx | rfl)
      · exact hx
      · rcases List.any_eq_true.mp h with ⟨t2, ht2, hp⟩
        rcases of_decide_eq_true hp with ⟨hf, hto, hs⟩
        exact (transition_eta hf hto hs) ▸ ht2
  · simp only [h, if_false]
    simp [List.mem_append]

theorem nodup_addTransitionIfNew {acc : List Transition} {q tg a : String}
    (h : acc.Nodup) : (addTransitionIfNew acc q tg a).Nodup := by
  unfold addTransitionIfNew
  by_cases hb : acc.any (fun t => decide (t.«from» = q ∧ t.«to» = tg ∧ t.symbol = a)) = true
  · rw [if_pos hb]; exact h
  · rw [if_neg hb]
    rw [List.nodup_append]
    refine ⟨h, List.nodup_singleton _, ?_⟩
    intro t ht hmem
    rcases List.mem_singleton.mp hmem with rfl
    exact hb (List.any_eq_true.mpr ⟨_, ht, by simp⟩)

theorem mem_foldl_addTransitionIfNew {q a : String} :
    ∀ (fr : List String) (acc : List Transition) (t : Transition),
      t ∈ fr.foldl (fun acc2 tg => addTransitionIfNew acc2 q tg a) acc ↔
        t ∈ acc ∨ ∃ tg ∈ fr, t = { «from» := q, «to» := tg, symbol := a } := by
  intro fr
  induction fr with
  | nil => intro acc t; simp
  | cons tg rest ih =>
    intro acc t
    rw [List.foldl_cons, ih, mem_addTransitionIfNew]
    constructor
    · rintro ((h | h) | ⟨tg2, htg2, h⟩)
      · exact Or.inl h
      · exact Or.inr ⟨tg, List.mem_cons_self _ _, h⟩
      · exact Or.inr ⟨tg2, List.mem_cons_of_mem _ htg2, h⟩
    · rintro (h | ⟨tg2, htg2, h⟩)
      · exact Or.inl (Or.inl h)
      · rcases List.mem_cons.mp htg2 with rfl | htg2
        · exact Or.inl (Or.inr h)
        · exact Or.inr ⟨tg2, htg2, h⟩

theorem nodup_foldl_addTransitionIfNew {q a : String} :
    ∀ (fr : List String) (acc : List Transition), acc.Nodup →
      (fr.foldl (fun acc2 tg => addTransitionIfNew acc2 q tg a) acc).Nodup := by
  intro fr
  induction fr with
  | nil => intro acc h; exact h
  | cons tg rest ih =>
    intro acc h
    exact ih _ (nodup_addTransitionIfNew h)

/-! ### The per-pair projection step -/

theorem pairStep_eq (enfa : Automaton) (closures : EpsilonClosureMap)
    (acc : List Transition) (q a : String) :
    pairStep enfa closures acc q a =
      (closures.lookup q).bind (fun qClosure =>
        (finalReachedM closures (reachedAfterSymbol enfa.transitions qClosure a)).bind
          (fun fr =>
            some (fr.foldl (fun acc2 target => addTransitionIfNew acc2 q target a) acc))) :=
  rfl

theorem pairStep_eq_some {enfa : Automaton} {closures : EpsilonClosureMap}
    {acc r : List Transition} {q a : String}
    (h : pairStep enfa closures acc q a = some r) :
    ∃ qc fr, closures.lookup q = some qc ∧
      finalReachedM closures (reachedAfterSymbol enfa.transitions qc a) = some fr ∧
      r = fr.foldl (fun acc2 target => addTransitionIfNew acc2 q target a) acc := by
  rw [pairStep_eq] at h
  rcases Option.bind_eq_some.mp h with ⟨qc, hq, h2⟩
  rcases Option.bind_eq_some.mp h2 with ⟨fr, hfr, h3⟩
  exact ⟨qc, fr, hq, hfr, (Option.some_inj.mp h3).symm⟩

theorem pairStep_isSome_congr {enfa : Automaton} {closures : EpsilonClosureMap}
    {acc acc2 r : List Transition} {q a : String}
    (h : pairStep enfa closures acc q a = some r) :
    (pairStep enfa closures acc2 q a).isSome := by
  rcases pairStep_eq_some h with ⟨qc, fr, hq, hfr, _⟩
  rw [pairStep_eq, hq, Option.some_bind, hfr, Option.some_bind]
  rfl

theorem pairStep_mem {enfa : Automaton} {acc r : List Transition} {q a : String}
    (h : pairStep enfa (computeAllEpsilonClosures enfa) acc q a = some r)
    (t : Transition) :
    t ∈ r ↔ t ∈ acc ∨ (t.«from» = q ∧ t.symbol = a ∧ ProjTarget enfa q a t.«to») := by
  rcases pairStep_eq_some h with ⟨qc, fr, hq, hfr, rfl⟩
  rcases lookup_closures_eq_some hq with ⟨hqmem, rfl⟩
  rcases finalReachedM_eq_some _ [] fr hfr with ⟨hsome, hmem⟩
  rw [mem_foldl_addTransitionIfNew]
  constructor
  · rintro (h1 | ⟨tg, htg, rfl⟩)
    · exact Or.inl h1
    · right
      refine ⟨rfl, rfl, ?_⟩
      rcases (hmem tg).mp htg with h2 | ⟨s, hs, c, hc, htgc⟩
      · simp at h2
      · rcases mem_reachedAfterSymbol.mp hs with ⟨tr, htr, hfm, hsym, hto⟩
        rcases lookup_closures_eq_some hc with ⟨_, rfl⟩
        exact ⟨tr, htr, hfm, hsym, hto ▸ htgc⟩
  · rintro (h1 | ⟨hf, hs, tr, htr, hfm, hsym, htg⟩)
    · exact Or.inl h1
    · right
      refine ⟨t.«to», ?_, (transition_eta hf rfl hs).symm ▸ rfl⟩
      have hsr : tr.«to» ∈ reachedAfterSymbol enfa.transitions
          (computeStateEpsilonClosure q enfa.transitions) a :=
        mem_reachedAfterSymbol.mpr ⟨tr, htr, hfm, hsym, rfl⟩
      have hls := hsome _ hsr
      rcases Option.isSome_iff_exists.mp hls with ⟨c, hc⟩
      rcases lookup_closures_eq_some hc with ⟨_, rfl⟩
      exact (hmem t.«to»).mpr (Or.inr ⟨tr.«to», hsr, _, hc, htg⟩)

theorem pairStep_nodup {enfa : Automaton} {closures : EpsilonClosureMap}
    {acc r : List Transition} {q a : String}
    (h : pairStep enfa closures acc q a = some r) (hacc : acc.Nodup) : r.Nodup := by
  rcases pairStep_eq_some h with ⟨qc, fr, _, _, rfl⟩
  exact nodup_foldl_addTransitionIfNew _ _ hacc

theorem pairStep_isSome_of {enfa : Automaton} {q a : String} (acc : List Transition)
    (hq : q ∈ enfa.states)
    (hto : ∀ t ∈ enfa.transitions, t.«to» ∈ enfa.states) :
    (pairStep enfa (computeAllEpsilonClosures enfa) acc q a).isSome := by
  rw [pairStep_eq, lookup_closures_of_mem hq, Option.some_bind]
  have h2 : (finalReachedM (computeAllEpsilonClosures enfa)
      (reachedAfterSymbol enfa.transitions
        (computeStateEpsilonClosure q enfa.transitions) a)).isSome := by
    refine finalReachedM_isSome _ [] ?_
    intro s hs
    rcases mem_reachedAfterSymbol.mp hs with ⟨t, ht, _, _, hto2⟩
    rw [lookup_closures_isSome]
    exact hto2 ▸ hto t ht
  rcases Option.isSome_iff_exists.mp h2 with ⟨fr, hfr⟩
  rw [hfr, Option.some_bind]
  rfl

/-! ### The nested loops of the projector -/

theorem alphaFold_eq_some {enfa : Automaton} {q : String} :
    ∀ (alpha : List String) (acc r : List Transition),
      (alpha.foldlM (fun acc2 a => pairStep enfa (computeAllEpsilonClosures enfa) acc2 q a) acc
          : Option (List Transition)) = some r →
      (∀ t, t ∈ r ↔ t ∈ acc ∨
          ∃ a ∈ alpha, t.«from» = q ∧ t.symbol = a ∧ ProjTarget enfa q a t.«to») ∧
        (acc.Nodup → r.Nodup) := by
  intro alpha
  induction alpha with
  | nil =>
    intro acc r h
    simp only [List.foldlM, Option.pure_def, Option.some_inj] at h
    subst h
    constructor
    · intro t; simp
    · exact id
  | cons a rest ih =>
    intro acc r h
    cases hp : pairStep enfa (computeAllEpsilonClosures enfa) acc q a with
    | none => simp [List.foldlM, hp] at h
    | some acc1 =>
      simp only [List.foldlM, hp, Option.some_bind] at h
      rcases ih acc1 r h with ⟨hmem, hnodup⟩
      constructor
      · intro t
        rw [hmem t, pairStep_mem hp]
        constructor
        · rintro ((h1 | h1) | ⟨a2, ha2, h1⟩)
          · exact Or.inl h1
          · exact Or.inr ⟨a, List.mem_cons_self _ _, h1⟩
          · exact Or.inr ⟨a2, List.mem_cons_of_mem _ ha2, h1⟩
        · rintro (h1 | ⟨a2, ha2, h1⟩)
          · exact Or.inl (Or.inl h1)
          · rcases List.mem_cons.mp ha2 with rfl | ha2
            · exact Or.inl (Or.inr h1)
            · exact Or.inr ⟨a2, ha2, h1⟩
      · intro hacc
        exact hnodup (pairStep_nodup hp hacc)

theorem alphaFold_isSome {enfa : Automaton} {q : String}
    (hq : q ∈ enfa.states)
    (hto : ∀ t ∈ enfa.transitions, t.«to» ∈ enfa.states) :
    ∀ (alpha : List String) (acc : List Transition),
      ((alpha.foldlM (fun acc2 a => pairStep enfa (computeAllEpsilonClosures enfa) acc2 q a) acc
          : Option (List Transition))).isSome := by
  intro alpha
  induction alpha with
  | nil => intro acc; rfl
  | cons a rest ih =>
    intro acc
    rcases Option.isSome_iff_exists.mp (@pairStep_isSome_of enfa q a acc hq hto) with ⟨acc1, hp⟩
    simp only [List.foldlM, hp, Option.some_bind]
    exact ih acc1

theorem stateFold_eq_some {enfa : Automaton} {alpha : List String} :
    ∀ (states : List String) (acc r : List Transition),
      (states.foldlM
        (fun acc q =>
          (alpha.foldlM (fun acc2 a => pairStep enfa (computeAllEpsilonClosures enfa) acc2 q a) acc
            : Option (List Transition))) acc : Option (List Transition)) = some r →
      (∀ t, t ∈ r ↔ t ∈ acc ∨
          ∃ q ∈ states, ∃ a ∈ alpha, t.«from» = q ∧ t.symbol = a ∧ ProjTarget enfa q a t.«to») ∧
        (acc.Nodup → r.Nodup) := by
  intro states
  induction states with
  | nil =>
    intro acc r h
    simp only [List.foldlM, Option.pure_def, Option.some_inj] at h
    subst h
    constructor
    · intro t; simp
    · exact id
  | cons q rest ih =>
    intro acc r h
    cases hp : (alpha.foldlM
        (fun acc2 a => pairStep enfa (computeAllEpsilonClosures enfa) acc2 q a) acc
          : Option (List Transition)) with
    | none => simp [List.foldlM, hp] at h
    | some acc1 =>
      simp only [List.foldlM, hp, Option.some_bind] at h
      rcases alphaFold_eq_some alpha acc acc1 hp with ⟨hmem1, hnodup1⟩
      rcases ih acc1 r h with ⟨hmem, hnodup⟩
      constructor
      · intro t
        rw [hmem t, hmem1 t]
        constructor
        · rintro ((h1 | ⟨a, ha, h1⟩) | ⟨q2, hq2, h1⟩)
          · exact Or.inl h1
          · exact Or.inr ⟨q, List.mem_cons_self _ _, a, ha, h1⟩
          · exact Or.inr ⟨q2, List.mem_cons_of_mem _ hq2, h1⟩
        · rintro (h1 | ⟨q2, hq2, h1⟩)
          · exact Or.inl (Or.inl h1)
          · rcases List.mem_cons.mp hq2 with rfl | hq2
            · exact Or.inl (Or.inr h1)
            · exact Or.inr ⟨q2, hq2, h1⟩
      · intro hacc
        exact hnodup (hnodup1 hacc)

theorem projectTransitions_eq_some {enfa : Automaton} {alpha : List String}
    {r : List Transition}
    (h : projectTransitions enfa (computeAllEpsilonClosures enfa) alpha = some r) :
    (∀ t, t ∈ r ↔
        ∃ q ∈ enfa.states, ∃ a ∈ alpha,
          t.«from» = q ∧ t.symbol = a ∧ ProjTarget enfa q a t.«to») ∧
      r.Nodup := by
  rcases stateFold_eq_some enfa.states [] r h with ⟨hmem, hnodup⟩
  constructor
  · intro t
    rw [hmem t]
    simp
  · exact hnodup (List.nodup_nil)

theorem projectTransitions_isSome {enfa : Automaton} {alpha : List String}
    (hto : ∀ t ∈ enfa.transitions, t.«to» ∈ enfa.states) :
    (projectTransitions enfa (computeAllEpsilonClosures enfa) alpha).isSome := by
  unfold projectTransitions
  have main : ∀ (states : List String), (∀ q ∈ states, q ∈ enfa.states) →
      ∀ acc : List Transition,
        ((states.foldlM
          (fun acc q =>
            (alpha.foldlM
              (fun acc2 a => pairStep enfa (computeAllEpsilonClosures enfa) acc2 q a) acc
              : Option (List Transition))) acc : Option (List Transition))).isSome := by
    intro states
    induction states with
    | nil => intro _ acc; rfl
    | cons q rest ih =>
      intro hsub acc
      rcases Option.isSome_iff_exists.mp
        (alphaFold_isSome (hsub q (List.mem_cons_self _ _)) hto alpha acc) with ⟨acc1, hp⟩
      simp only [List.foldlM, hp, Option.some_bind]
      exact ih (fun q2 hq2 => hsub q2 (List.mem_cons_of_mem _ hq2)) acc1
  exact main enfa.states (fun _ h => h) []

/-! ### The final-state selector -/

theorem selectFold_eq_some {enfa : Automaton} :
    ∀ (states : List String) (acc fs : List String),
      (states.foldlM
        (fun acc q =>
          ((computeAllEpsilonClosures enfa).lookup q).map
            (fun qClosure =>
              if qClosure.any (fun s => decide (s ∈ enfa.finalStates)) then acc ++ [q]
              else acc)) acc : Option (List String)) = some fs →
      ∀ x, x ∈ fs ↔ x ∈ acc ∨
        (x ∈ states ∧ ∃ s ∈ computeStateEpsilonClosure x enfa.transitions, s ∈ enfa.finalStates) := by
  intro states
  induction states with
  | nil =>
    intro acc fs h
    simp only [List.foldlM, Option.pure_def, Option.some_inj] at h
    subst h
    intro x
    simp
  | cons q rest ih =>
    intro acc fs h
    cases hl : (computeAllEpsilonClosures enfa).lookup q with
    | none => simp [List.foldlM, hl] at h
    | some qc =>
      rcases lookup_closures_eq_some hl with ⟨hqmem, rfl⟩
      simp only [List.foldlM, hl, Option.map_some', Option.some_bind] at h
      by_cases hany : (computeStateEpsilonClosure q enfa.transitions).any
          (fun s => decide (s ∈ enfa.finalStates)) = true
      · rw [if_pos hany] at h
        have hP : ∃ s ∈ computeStateEpsilonClosure q enfa.transitions, s ∈ enfa.finalStates := by
          rcases List.any_eq_true.mp hany with ⟨s, hs, hdec⟩
          exact ⟨s, hs, of_decide_eq_true hdec⟩
        intro x
        rw [ih _ _ h x]
        constructor
        · rintro (hx | ⟨hx1, hx2⟩)
          · rcases List.mem_append.mp hx with hx | hx
            · exact Or.inl hx
            · rcases List.mem_singleton.mp hx with rfl
              exact Or.inr ⟨List.mem_cons_self _ _, hP⟩
          · exact Or.inr ⟨List.mem_cons_of_mem _ hx1, hx2⟩
        · rintro (hx | ⟨hx1, hx2⟩)
          · exact Or.inl (List.mem_append_left _ hx)
          · rcases List.mem_cons.mp hx1 with rfl | hx1
            · exact Or.inl (List.mem_append_right _ (List.mem_singleton_self _))
            · exact Or.inr ⟨hx1, hx2⟩
      · rw [if_neg hany] at h
        intro x
        rw [ih _ _ h x]
        constructor
        · rintro (hx | ⟨hx1, hx2⟩)
          · exact Or.inl hx
          · exact Or.inr ⟨List.mem_cons_of_mem _ hx1, hx2⟩
        · rintro (hx | ⟨hx1, hx2⟩)
          · exact Or.inl hx
          · rcases List.mem_cons.mp hx1 with rfl | hx1
            · exact absurd (List.any_eq_true.mpr
                (by rcases hx2 with ⟨s, hs, hsf⟩; exact ⟨s, hs, decide_eq_true hsf⟩)) hany
            · exact Or.inr ⟨hx1, hx2⟩

theorem selectFinalStates_mem {enfa : Automaton} {fs : List String}
    (h : selectFinalStates enfa (computeAllEpsilonClosures enfa) = some fs) :
    ∀ x, x ∈ fs ↔ x ∈ enfa.states ∧
      ∃ s ∈ computeStateEpsilonClosure x enfa.transitions, s ∈ enfa.finalStates := by
  intro x
  rw [selectFold_eq_some enfa.states [] fs h x]
  simp

theorem selectFinalStates_isSome (enfa : Automaton) :
    (selectFinalStates enfa (computeAllEpsilonClosures enfa)).isSome := by
  unfold selectFinalStates
  have main : ∀ (states : List String), (∀ q ∈ states, q ∈ enfa.states) →
      ∀ acc : List String,
        ((states.foldlM
          (fun acc q =>
            ((computeAllEpsilonClosures enfa).lookup q).map
              (fun qClosure =>
                if qClosure.any (fun s => decide (s ∈ enfa.finalStates)) then acc ++ [q]
                else acc)) acc : Option (List String))).isSome := by
    intro states
    induction states with
    | nil => intro _ acc; rfl
    | cons q rest ih =>
      intro hsub acc
      simp only [List.foldlM, lookup_closures_of_mem (hsub q (List.mem_cons_self _ _)),
        Option.map_some', Option.some_bind]
      exact ih (fun q2 hq2 => hsub q2 (List.mem_cons_of_mem _ hq2)) _
  exact main enfa.states (fun _ h => h) []

/-! ### The converter: decomposition into its components -/

theorem convertENFAToNFA_eq (enfa : Automaton) :
    convertENFAToNFA enfa =
      (projectTransitions enfa (computeAllEpsilonClosures enfa)
        (enfa.alphabet.filter fun a => decide (¬(a = "" ∨ a = "ε")))).bind
        (fun newTransitions =>
          (selectFinalStates enfa (computeAllEpsilonClosures enfa)).bind
            (fun newFinalStates =>
              some
                { nfa :=
                    { states := enfa.states
                      alphabet := enfa.alphabet.filter fun a => decide (¬(a = "" ∨ a = "ε"))
                      transitions := newTransitions
                      initialState := enfa.initialState
                      finalStates := newFinalStates }
                  closures := computeAllEpsilonClosures enfa })) :=
  rfl

theorem convert_eq_some_parts {enfa : Automaton} {res : ConversionResult}
    (h : convertENFAToNFA enfa = some res) :
    ∃ nt nf,
      projectTransitions enfa (computeAllEpsilonClosures enfa)
        (enfa.alphabet.filter fun a => decide (¬(a = "" ∨ a = "ε"))) = some nt ∧
      selectFinalStates enfa (computeAllEpsilonClosures enfa) = some nf ∧
      res =
        { nfa :=
            { states := enfa.states
              alphabet := enfa.alphabet.filter fun a => decide (¬(a = "" ∨ a = "ε"))
              transitions := nt
              initialState := enfa.initialState
              finalStates := nf }
          closures := computeAllEpsilonClosures enfa } := by
  rw [convertENFAToNFA_eq] at h
  rcases Option.bind_eq_some.mp h with ⟨nt, hnt, h2⟩
  rcases Option.bind_eq_some.mp h2 with ⟨nf, hnf, h3⟩
  exact ⟨nt, nf, hnt, hnf, (Option.some_inj.mp h3).symm⟩

theorem convert_isSome {enfa : Automaton}
    (hto : ∀ t ∈ enfa.transitions, t.«to» ∈ enfa.states) :
    (convertENFAToNFA enfa).isSome := by
  rw [convertENFAToNFA_eq]
  rcases Option.isSome_iff_exists.mp
    (@projectTransitions_isSome enfa
      (enfa.alphabet.filter fun a => decide (¬(a = "" ∨ a = "ε"))) hto) with ⟨nt, hnt⟩
  rcases Option.isSome_iff_exists.mp (selectFinalStates_isSome enfa) with ⟨nf, hnf⟩
  rw [hnt, Option.some_bind, hnf, Option.some_bind]
  rfl

theorem convert_transitions_mem {enfa : Automaton} {res : ConversionResult}
    (h : convertENFAToNFA enfa = some res) :
    (∀ t : Transition, t ∈ res.nfa.transitions ↔
        t.«from» ∈ enfa.states ∧ (t.symbol ∈ enfa.alphabet ∧ ¬(t.symbol = "" ∨ t.symbol = "ε")) ∧
          ProjTarget enfa t.«from» t.symbol t.«to») ∧
      res.nfa.transitions.Nodup := by
  rcases convert_eq_some_parts h with ⟨nt, nf, hnt, hnf, hres⟩
  rcases projectTransitions_eq_some hnt with ⟨hmem, hnodup⟩
  have htr : res.nfa.transitions = nt := by rw [hres]
  rw [htr]
  refine ⟨?_, hnodup⟩
  intro t
  rw [hmem t]
  constructor
  · rintro ⟨q, hq, a, ha, hf, hs, hp⟩
    rcases List.mem_filter.mp ha with ⟨ha1, ha2⟩
    exact ⟨hf ▸ hq, ⟨hs ▸ ha1, hs ▸ of_decide_eq_true ha2⟩, hf ▸ hs ▸ hp⟩
  · rintro ⟨hq, ⟨ha1, ha2⟩, hp⟩
    exact ⟨t.«from», hq, t.symbol,
      List.mem_filter.mpr ⟨ha1, decide_eq_true ha2⟩, rfl, rfl, hp⟩

theorem convert_finalStates_mem {enfa : Automaton} {res : ConversionResult}
    (h : convertENFAToNFA enfa = some res) :
    ∀ x, x ∈ res.nfa.finalStates ↔ x ∈ enfa.states ∧
      ∃ s ∈ computeStateEpsilonClosure x enfa.transitions, s ∈ enfa.finalStates := by
  rcases convert_eq_some_parts h with ⟨nt, nf, hnt, hnf, rfl⟩
  exact selectFinalStates_mem hnf

theorem convert_frame {enfa : Automaton} {res : ConversionResult}
    (h : convertENFAToNFA enfa = some res) :
    res.nfa.states = enfa.states ∧ res.nfa.initialState = enfa.initialState ∧
      res.nfa.alphabet = enfa.alphabet.filter (fun a => decide (¬(a = "" ∨ a = "ε"))) ∧
      res.closures = computeAllEpsilonClosures enfa := by
  rcases convert_eq_some_parts h with ⟨nt, nf, _, _, rfl⟩
  exact ⟨rfl, rfl, rfl, rfl⟩

/-! ### Claim theorems -/

/-- Claim C1: for every automaton, every state `q` and every non-epsilon
alphabet symbol `a`, the transitions the converter emits for the pair
`(q, a)` are exactly the triples `(q, target, a)` with `target` in the
epsilon closure of the symbol step out of the epsilon closure of `q`, each
appearing at most once, and none when that set is empty (the emptiness
case is the right-to-left direction of the equivalence). -/
theorem projected_transitions_exact (enfa : Automaton) (res : ConversionResult)
    (q a : String) (hr : convertENFAToNFA enfa = some res) (hq : q ∈ enfa.states)
    (ha : a ∈ enfa.alphabet) (hne : ¬(a = "" ∨ a = "ε")) :
    (∀ target, ({ «from» := q, «to» := target, symbol := a } : Transition)
        ∈ res.nfa.transitions ↔ ProjTarget enfa q a target) ∧
      res.nfa.transitions.Nodup := by
  rcases convert_transitions_mem hr with ⟨hmem, hnodup⟩
  refine ⟨?_, hnodup⟩
  intro target
  rw [hmem]
  constructor
  · rintro ⟨_, _, hp⟩
    exact hp
  · intro hp
    exact ⟨hq, ⟨ha, hne⟩, hp⟩

theorem projected_transitions_exact_witness :
    (∀ target, ({ «from» := "A", «to» := target, symbol := "0" } : Transition)
        ∈ exampleConversion.nfa.transitions ↔ ProjTarget exampleENFA "A" "0" target) ∧
      exampleConversion.nfa.transitions.Nodup :=
  projected_transitions_exact exampleENFA exampleConversion "A" "0" (by decide) (by decide)
    (by decide) (by decide)

/-- Claim C2, counterexample: an input violating invariants 1 and 2 of the
data model (initial state and a final state not in `states`) is not
rejected; the converter runs to completion and returns a full result. -/
theorem validation_rejection_counterexample :
    invalidInitENFA.initialState ∉ invalidInitENFA.states ∧
      (∃ x ∈ invalidInitENFA.finalStates, x ∉ invalidInitENFA.states) ∧
      convertENFAToNFA invalidInitENFA =
        some
          { nfa :=
              { states := ["A"]
                alphabet := ["0"]
                transitions := []
                initialState := "Z"
                finalStates := [] }
            closures := [("A", ["A"])] } := by
  decide

/-- Claim C2, amended: the converter performs no input validation.  Inputs
violating invariants 1, 2 or 4 are converted without failure; only a
projection step that reaches a state outside `states` (an undefined
closure-map lookup, e.g. a dangling transition target) fails, and it fails
during the projection work, not before it. -/
theorem no_validation_behavior :
    (convertENFAToNFA invalidInitENFA).isSome ∧
      (convertENFAToNFA undeclaredSymENFA).isSome ∧
      convertENFAToNFA danglingENFA = none := by
  decide

/-- Claim C3: on the worked example (states A,B,C; alphabet 0,1,ε;
transitions A-0→A, A-ε→B, B-1→B, B-ε→C, C-0→C; initial A; final C) the
converter returns closures A↦{A,B,C}, B↦{B,C}, C↦{C}, the projected
per-pair target sets listed by the spec (none for C on 1), and final
states {A,B,C}. -/
theorem worked_example_conversion :
    convertENFAToNFA exampleENFA = some exampleConversion ∧
      (computeAllEpsilonClosures exampleENFA).lookup "A" = some ["A", "B", "C"] ∧
      (computeAllEpsilonClosures exampleENFA).lookup "B" = some ["B", "C"] ∧
      (computeAllEpsilonClosures exampleENFA).lookup "C" = some ["C"] ∧
      ((exampleConversion.nfa.transitions.filter
        (fun t => decide (t.«from» = "A" ∧ t.symbol = "0"))).map (fun t => t.«to»))
        = ["A", "B", "C"] ∧
      ((exampleConversion.nfa.transitions.filter
        (fun t => decide (t.«from» = "A" ∧ t.symbol = "1"))).map (fun t => t.«to»))
        = ["B", "C"] ∧
      ((exampleConversion.nfa.transitions.filter
        (fun t => decide (t.«from» = "B" ∧ t.symbol = "0"))).map (fun t => t.«to»))
        = ["C"] ∧
      ((exampleConversion.nfa.transitions.filter
        (fun t => decide (t.«from» = "B" ∧ t.symbol = "1"))).map (fun t => t.«to»))
        = ["B", "C"] ∧
      ((exampleConversion.nfa.transitions.filter
        (fun t => decide (t.«from» = "C" ∧ t.symbol = "0"))).map (fun t => t.«to»))
        = ["C"] ∧
      ((exampleConversion.nfa.transitions.filter
        (fun t => decide (t.«from» = "C" ∧ t.symbol = "1"))).map (fun t => t.«to»))
        = [] ∧
      exampleConversion.nfa.finalStates = ["A", "B", "C"] := by
  decide

/-- Claim C4: the final-state set of the returned NFA is exactly the set
of declared states whose epsilon closure meets the original final states;
in particular every original final state is final in the result, and a
state connected to a final state by an epsilon path is final in the
result. -/
theorem final_states_exact (enfa : Automaton) (res : ConversionResult)
    (hr : convertENFAToNFA enfa = some res) :
    (∀ q, q ∈ res.nfa.finalStates ↔ q ∈ enfa.states ∧
        ∃ s ∈ computeStateEpsilonClosure q enfa.transitions, s ∈ enfa.finalStates) ∧
      (∀ q ∈ enfa.states, q ∈ enfa.finalStates → q ∈ res.nfa.finalStates) ∧
      (∀ q ∈ enfa.states, ∀ s ∈ computeStateEpsilonClosure q enfa.transitions,
        s ∈ enfa.finalStates → q ∈ res.nfa.finalStates) := by
  have hm := convert_finalStates_mem hr
  refine ⟨hm, ?_, ?_⟩
  · intro q hq hqf
    exact (hm q).mpr ⟨hq, q, self_mem_closure q enfa.transitions, hqf⟩
  · intro q hq s hs hsf
    exact (hm q).mpr ⟨hq, s, hs, hsf⟩

theorem final_states_exact_witness :
    (∀ q, q ∈ exampleConversion.nfa.finalStates ↔ q ∈ exampleENFA.states ∧
        ∃ s ∈ computeStateEpsilonClosure q exampleENFA.transitions,
          s ∈ exampleENFA.finalStates) ∧
      (∀ q ∈ exampleENFA.states, q ∈ exampleENFA.finalStates →
        q ∈ exampleConversion.nfa.finalStates) ∧
      (∀ q ∈ exampleENFA.states,
        ∀ s ∈ computeStateEpsilonClosure q exampleENFA.transitions,
          s ∈ exampleENFA.finalStates → q ∈ exampleConversion.nfa.finalStates) :=
  final_states_exact exampleENFA exampleConversion (by decide)

/-- Claim C5: the closure map has one entry for every declared state, the
closure of a state with no outgoing epsilon edges is the singleton of the
state, every closure contains its own state, and every closure is closed
under epsilon transitions. -/
theorem closure_map_total_reflexive_closed (enfa : Automaton) (q : String) :
    (q ∈ enfa.states →
      (computeAllEpsilonClosures enfa).lookup q
        = some (computeStateEpsilonClosure q enfa.transitions)) ∧
      q ∈ computeStateEpsilonClosure q enfa.transitions ∧
      (∀ r s : String, r ∈ computeStateEpsilonClosure q enfa.transitions →
        (∃ t ∈ enfa.transitions, t.«from» = r ∧ (t.symbol = "" ∨ t.symbol = "ε") ∧ t.«to» = s) →
        s ∈ computeStateEpsilonClosure q enfa.transitions) ∧
      ((∀ t ∈ enfa.transitions, t.«from» = q → ¬(t.symbol = "" ∨ t.symbol = "ε")) →
        computeStateEpsilonClosure q enfa.transitions = [q]) := by
  refine ⟨fun hq => lookup_closures_of_mem hq, self_mem_closure q _, ?_, ?_⟩
  · intro r s hr hex
    exact closure_closed q enfa.transitions r hr s (mem_epsilonMoves.mpr hex)
  · intro hno
    refine epsilonClosure_singleton ?_
    rw [epsilonMoves]
    have hfil : enfa.transitions.filter
        (fun t => decide (t.«from» = q ∧ (t.symbol = "" ∨ t.symbol = "ε"))) = [] := by
      rw [List.filter_eq_nil_iff]
      intro t ht
      simp only [decide_eq_true_eq]
      rintro ⟨hf, hs⟩
      exact hno t ht hf hs
    rw [hfil]
    rfl

theorem closure_map_total_reflexive_closed_witness :
    (computeAllEpsilonClosures exampleENFA).lookup "A"
        = some (computeStateEpsilonClosure "A" exampleENFA.transitions) ∧
      "A" ∈ computeStateEpsilonClosure "A" exampleENFA.transitions :=
  ⟨(closure_map_total_reflexive_closed exampleENFA "A").1 (by decide),
    (closure_map_total_reflexive_closed exampleENFA "A").2.1⟩

/-- Claim C6: the worklist computation terminates on every input — past
the proved fuel bound, more fuel never changes the loop result, i.e. the
worklist has emptied — and on the two-state epsilon cycle both closures
equal both states. -/
theorem closure_terminates_on_cycles :
    (∀ (ts : List Transition) (state : String) (fuel : Nat), closureFuel ts ≤ fuel →
      closureLoop ts fuel [state] [state]
        = closureLoop ts (closureFuel ts) [state] [state]) ∧
      computeStateEpsilonClosure "X" cycleENFA.transitions = ["X", "Y"] ∧
      computeStateEpsilonClosure "Y" cycleENFA.transitions = ["X", "Y"] := by
  refine ⟨?_, by decide, by decide⟩
  intro ts state fuel hf
  exact closureLoop_of_le ts (closureFuel ts) fuel [state] [state]
    (loopMeasure_init_le ts state) hf

theorem closure_terminates_on_cycles_witness :
    closureFuel cycleENFA.transitions ≤ 100 ∧
      closureLoop cycleENFA.transitions 100 ["X"] ["X"]
        = closureLoop cycleENFA.transitions (closureFuel cycleENFA.transitions) ["X"] ["X"] :=
  ⟨by decide, closure_terminates_on_cycles.1 cycleENFA.transitions "X" 100 (by decide)⟩

/-- Claim C7: converting a well-formed automaton that has no epsilon
transitions yields an NFA with the same transition set (as sets of
triples) and the same final-state set as the input. -/
theorem no_epsilon_idempotence (enfa : Automaton)
    (hst : ∀ t ∈ enfa.transitions, t.«from» ∈ enfa.states ∧ t.«to» ∈ enfa.states)
    (hsym : ∀ t ∈ enfa.transitions, t.symbol ∈ enfa.alphabet)
    (hfin : ∀ q ∈ enfa.finalStates, q ∈ enfa.states)
    (hnoeps : ∀ t ∈ enfa.transitions, ¬(t.symbol = "" ∨ t.symbol = "ε")) :
    ∃ res, convertENFAToNFA enfa = some res ∧
      (∀ t, t ∈ res.nfa.transitions ↔ t ∈ enfa.transitions) ∧
      (∀ q, q ∈ res.nfa.finalStates ↔ q ∈ enfa.finalStates) := by
  rcases Option.isSome_iff_exists.mp (convert_isSome (fun t ht => (hst t ht).2)) with ⟨res, hres⟩
  have hsing : ∀ p : String, computeStateEpsilonClosure p enfa.transitions = [p] := by
    intro p
    refine epsilonClosure_singleton ?_
    rw [epsilonMoves]
    have hfil : enfa.transitions.filter
        (fun t => decide (t.«from» = p ∧ (t.symbol = "" ∨ t.symbol = "ε"))) = [] := by
      rw [List.filter_eq_nil_iff]
      intro t ht
      simp only [decide_eq_true_eq]
      rintro ⟨_, hs⟩
      exact hnoeps t ht hs
    rw [hfil]
    rfl
  refine ⟨res, hres, ?_, ?_⟩
  · rcases convert_transitions_mem hres with ⟨hmem, _⟩
    intro t
    rw [hmem t]
    constructor
    · rintro ⟨hq, ⟨ha1, ha2⟩, tr, htr, hfm, hsym2, htg⟩
      rw [hsing] at hfm htg
      have hfm2 : tr.«from» = t.«from» := List.mem_singleton.mp hfm
      have htg2 : t.«to» = tr.«to» := List.mem_singleton.mp htg
      have h1 : tr = { «from» := t.«from», «to» := t.«to», symbol := t.symbol } :=
        transition_eta hfm2 htg2.symm hsym2
      have h2 : t = { «from» := t.«from», «to» := t.«to», symbol := t.symbol } :=
        transition_eta rfl rfl rfl
      rw [h2, ← h1]
      exact htr
    · intro ht
      refine ⟨(hst t ht).1, ⟨hsym t ht, hnoeps t ht⟩, t, ht, ?_, rfl, ?_⟩
      · rw [hsing]
        exact List.mem_singleton_self _
      · rw [hsing]
        exact List.mem_singleton_self _
  · intro x
    rw [convert_finalStates_mem hres x]
    constructor
    · rintro ⟨hx, s, hs, hsf⟩
      rw [hsing] at hs
      have : s = x := List.mem_singleton.mp hs
      exact this ▸ hsf
    · intro hx
      exact ⟨hfin x hx, x, by rw [hsing]; exact List.mem_singleton_self _, hx⟩

theorem no_epsilon_idempotence_witness :
    ∃ res, convertENFAToNFA noEpsENFA = some res ∧
      (∀ t, t ∈ res.nfa.transitions ↔ t ∈ noEpsENFA.transitions) ∧
      (∀ q, q ∈ res.nfa.finalStates ↔ q ∈ noEpsENFA.finalStates) :=
  no_epsilon_idempotence noEpsENFA (by decide) (by decide) (by decide) (by decide)

/-- Claim C8: the closure calculator returns its result lexicographically
sorted (under the code-point order `strLe` that JS string sorting uses),
and the conversion is deterministic: equal inputs give identical outputs
(the embedding is a pure function, so this also covers byte-identity of
the serialized outputs). -/
theorem conversion_deterministic_sorted :
    (∀ (state : String) (ts : List Transition),
      List.Sorted (fun a b => strLe a b = true) (computeStateEpsilonClosure state ts)) ∧
      ∀ e1 e2 : Automaton, e1 = e2 → convertENFAToNFA e1 = convertENFAToNFA e2 :=
  ⟨fun state ts => closure_sorted state ts, fun _ _ h => h ▸ rfl⟩

theorem conversion_deterministic_sorted_witness :
    List.Sorted (fun a b => strLe a b = true)
        (computeStateEpsilonClosure "A" exampleENFA.transitions) ∧
      convertENFAToNFA exampleENFA = convertENFAToNFA exampleENFA :=
  ⟨conversion_deterministic_sorted.1 "A" exampleENFA.transitions,
    conversion_deterministic_sorted.2 exampleENFA exampleENFA rfl⟩

/-- Claim C9: whenever the converter returns, the result has the same
states and initial state as the input and the input alphabet with the
epsilon markers removed; the input itself is untouched (the embedding is
a pure function of the input, which is the only frame condition a pure
model can state). -/
theorem conversion_preserves_frame (enfa : Automaton) (res : ConversionResult)
    (hr : convertENFAToNFA enfa = some res) :
    res.nfa.states = enfa.states ∧ res.nfa.initialState = enfa.initialState ∧
      res.nfa.alphabet = enfa.alphabet.filter (fun a => decide (¬(a = "" ∨ a = "ε"))) := by
  rcases convert_frame hr with ⟨h1, h2, h3, _⟩
  exact ⟨h1, h2, h3⟩

theorem conversion_preserves_frame_witness :
    exampleConversion.nfa.states = exampleENFA.states ∧
      exampleConversion.nfa.initialState = exampleENFA.initialState ∧
      exampleConversion.nfa.alphabet
        = exampleENFA.alphabet.filter (fun a => decide (¬(a = "" ∨ a = "ε"))) :=
  conversion_preserves_frame exampleENFA exampleConversion (by decide)

/-- Claim C10: when every transition endpoint is a declared state, every
closure-map lookup the converter performs is defined — the map is total on
the declared states and the whole conversion succeeds without ever
dereferencing a missing entry. -/
theorem closure_lookups_total (enfa : Automaton)
    (hinv : ∀ t ∈ enfa.transitions, t.«from» ∈ enfa.states ∧ t.«to» ∈ enfa.states) :
    (∀ q ∈ enfa.states, ((computeAllEpsilonClosures enfa).lookup q).isSome) ∧
      (convertENFAToNFA enfa).isSome :=
  ⟨fun _ hq => lookup_closures_isSome.mpr hq, convert_isSome (fun t ht => (hinv t ht).2)⟩

theorem closure_lookups_total_witness :
    (∀ q ∈ exampleENFA.states, ((computeAllEpsilonClosures exampleENFA).lookup q).isSome) ∧
      (convertENFAToNFA exampleENFA).isSome :=
  closure_lookups_total exampleENFA (by decide)
